import Mathlib

/-!
Verification of the embassy ADC sampling/actuation examples.

Shallow embedding of the two example programs:

* src/examples/rp/src/bin/iot_adc.rs (threshold variant): the task
  `read_adc_value` keeps a ring of 10 u16 ADC readings; after every 10th
  reading it publishes `measurements.iter().sum::<u16>() / 10` on a bounded
  channel of capacity 64; the consumer in `main` sets the LED high exactly
  when `value > 2048`.
* src/examples/rp/src/bin/iot_adc_variable_period.rs (variable-period
  variant): the task `read_adc_value` signals each raw reading once a
  second; the consumer in `main` computes
  `(5000.0 - (value as f64 / 4095.0) * 5000.0) as i64`, clamps it with
  `max(min(5000_i64, duration), 100)` and signals the duration to the
  LED-toggling task.

Machine integers are modelled as naturals with an explicit `% 2 ^ 16`
where the source can wrap (`sum::<u16>()`).  The f64 arithmetic is
modelled exactly: every Rust f64 operation rounds the exact rational
result of the operation to the nearest binary64 value (53-bit
significand, round to nearest, ties to even); every intermediate value of
this program is strictly inside the normal finite range, so that rounding
is the only effect of the floating-point types, and `fl53` below
implements it exactly.
-/

namespace Embassy

/-- Evaluate a natural number once before substituting it (an identity,
see `forceNat_eq`).  This keeps kernel reduction of `decide` proofs
linear: without it every use of a bound value re-evaluates the whole
term that produced it. -/
def forceNat {α : Sort u} (n : ℕ) (f : ℕ → α) : α :=
  match n with
  | 0 => f 0
  | m + 1 => f (m + 1)

/-- Evaluate an integer once before substituting it (an identity, see
`forceInt_eq`). -/
def forceInt {α : Sort u} (i : ℤ) (f : ℤ → α) : α :=
  match i with
  | .ofNat n => forceNat n fun n => f (.ofNat n)
  | .negSucc n => forceNat n fun n => f (.negSucc n)

/-- Floor of the base-2 logarithm of n, for 1 ≤ n < 2 ^ 256 (0 for n = 0),
by an unrolled binary search — recursion-free so that the kernel evaluates
it quickly.  Every number occurring in this development is far below
2 ^ 256. -/
def nlog2 (n : ℕ) : ℕ :=
  forceNat (if 2 ^ 128 ≤ n then 128 else 0) fun e =>
  forceNat (if 2 ^ (e + 64) ≤ n then e + 64 else e) fun e =>
  forceNat (if 2 ^ (e + 32) ≤ n then e + 32 else e) fun e =>
  forceNat (if 2 ^ (e + 16) ≤ n then e + 16 else e) fun e =>
  forceNat (if 2 ^ (e + 8) ≤ n then e + 8 else e) fun e =>
  forceNat (if 2 ^ (e + 4) ≤ n then e + 4 else e) fun e =>
  forceNat (if 2 ^ (e + 2) ≤ n then e + 2 else e) fun e =>
  if 2 ^ (e + 1) ≤ n then e + 1 else e

/-- Whether the rational a / b is at least 2 ^ l, for natural a, b and an
integer exponent l. -/
def gePow2 (a b : ℕ) (l : ℤ) : Bool :=
  if 0 ≤ l then b * 2 ^ l.toNat ≤ a else b ≤ a * 2 ^ (-l).toNat

/-- Floor of the base-2 logarithm of the rational a / b, for a, b > 0. -/
def flog2 (a b : ℕ) : ℤ :=
  forceNat (nlog2 a) fun la =>
  forceNat (nlog2 b) fun lb =>
  let l : ℤ := (la : ℤ) - (lb : ℤ)
  if gePow2 a b l then l else l - 1

/-- Round the rational a / b to the nearest integer, ties to even. -/
def rne (a b : ℕ) : ℕ :=
  forceNat (a / b) fun q =>
  forceNat (a % b) fun r =>
  if 2 * r < b then q
  else if b < 2 * r then q + 1
  else if q % 2 = 0 then q else q + 1

/-- Round the rational a / b (a, b > 0) to the nearest binary64 value,
ties to even: the result is a significand/exponent pair (q, e) with value
q * 2 ^ e and 2 ^ 52 ≤ q ≤ 2 ^ 53 (the input is assumed to be in the
normal range, as every value of this program is).  a = 0 gives the float
0.0. -/
def fl53 (a b : ℕ) : ℕ × ℤ :=
  if a = 0 ∨ b = 0 then (0, 0)
  else
    forceInt (flog2 a b - 52) fun e =>
    let q := if 0 ≤ e then rne a (b * 2 ^ e.toNat) else rne (a * 2 ^ (-e).toNat) b
    (q, e)

/-- The binary64 value (q, e) as an exact rational: a numerator/denominator
pair of naturals. -/
def ratOfFloat (q : ℕ) (e : ℤ) : ℕ × ℕ :=
  if 0 ≤ e then (q * 2 ^ e.toNat, 1) else (q, 2 ^ (-e).toNat)

/-- Truncation toward zero of the nonnegative binary64 value (q, e)
(Rust `as i64` applied to a nonnegative f64). -/
def truncFloat (q : ℕ) (e : ℤ) : ℕ :=
  if 0 ≤ e then q * 2 ^ e.toNat else q / 2 ^ (-e).toNat

/-- The duration computed by `main` of the variable-period example
(iot_adc_variable_period.rs lines 95-96) for a received value v: the f64
expression `5000.0 - (v as f64 / 4095.0) * 5000.0` truncated to an
integer by `as i64`, then clamped by `max(min(5000_i64, duration), 100)`.
The received value is the u16 ADC reading (at most 4095 in hardware)
widened to u64, so `value as f64` is exact. -/
def map_value_to_period (v : ℕ) : ℕ :=
  -- x = value as f64 / 4095.0
  match fl53 v 4095 with
  | (q1, e1) => forceNat q1 fun q1 => forceInt e1 fun e1 =>
    -- y = x * 5000.0  (x equals q1 * 2 ^ e1 exactly, so y rounds the
    -- exact product (q1 * 5000) * 2 ^ e1)
    match ratOfFloat (q1 * 5000) e1 with
    | (a2, b2) => forceNat a2 fun a2 => forceNat b2 fun b2 =>
      match fl53 a2 b2 with
      | (q2, e2) => forceNat q2 fun q2 => forceInt e2 fun e2 =>
        -- z = 5000.0 - y  (the exact difference 5000 - q2 * 2 ^ e2,
        -- re-rounded; y never exceeds 5000.0, see the range note below)
        match ratOfFloat q2 e2 with
        | (yn, yd) => forceNat yn fun yn => forceNat yd fun yd =>
          match fl53 (5000 * yd - yn) yd with
          | (q3, e3) => forceNat q3 fun q3 => forceInt e3 fun e3 =>
            -- duration = z as i64; max(min(5000, duration), 100)
            max (min 5000 (truncFloat q3 e3)) 100

/-- The reference law of the specification (section 4.2), with the result
floored to an integer: period = MAX_PERIOD - (v / v_max) * (MAX_PERIOD -
MIN_PERIOD) = 5000 - (v / 4095) * 4900, then clamped to [100, 5000].
The floor of the real value 5000 - 4900 * v / 4095 is
5000 - (4900 * v + 4094) / 4095 in natural division.  Any other rounding
of the real-valued law changes the result by at most 1, while the code
differs from this law by about 50 in the middle of the range. -/
def period_spec_law (v : ℕ) : ℕ :=
  max (min 5000 (5000 - (4900 * v + 4094) / 4095)) 100

/-- Exact integer characterization of what the code computes: the slope of
the linear law is MAX_PERIOD = 5000, not MAX_PERIOD - MIN_PERIOD = 4900.
The value is 5000 - (the ceiling of 5000 * v / 4095), clamped to
[100, 5000]; the f64 computation of the code rounds to exactly this
(proved pointwise for every v ≤ 4095 below). -/
def period_code_law (v : ℕ) : ℕ :=
  max (min 5000 (5000 - (5000 * v + 4094) / 4095)) 100

/-!
The sampler task of the threshold variant (iot_adc.rs, `read_adc_value`,
lines 69-92):

```rust
let mut measurements = [0u16; 10];
let mut pos = 0;
loop {
    measurements[pos] = adc.read(&mut p26).await.unwrap();
    pos = (pos + 1) % 10;
    if pos == 0 {
        let average = measurements.iter().sum::<u16>() / 10;
        tx_value.send(average).await;
    }
    Timer::after_millis(100).await;
}
```

The ring is a function from Fin 10; the cursor is a Fin 10 (addition on
Fin 10 is exactly the `(pos + 1) % 10` of the source).  A reading is an
`Option ℕ`: `some v` for `Ok(v)`, `none` for `Err(HardwareFault)` — on
`none` the `unwrap()` panics, which (with the panic-probe handler of a
no_std target) halts the task, so nothing further is ever published.
-/

/-- Wrapping u16 sum of a list, in iteration order: the
`measurements.iter().sum::<u16>()` of the source, where u16 addition is
computed modulo 2 ^ 16 = 65536. -/
def u16sum (l : List ℕ) : ℕ := l.foldl (fun a x => (a + x) % 65536) 0

/-- The contents of the ring in index order, as summed by
`measurements.iter()`. -/
def ringList (ms : Fin 10 → ℕ) : List ℕ :=
  [ms 0, ms 1, ms 2, ms 3, ms 4, ms 5, ms 6, ms 7, ms 8, ms 9]

/-- The list of averages published by the sampler task of the threshold
variant, run over a finite prefix of readings: ring ms, cursor pos, and
one reading consumed per iteration.  A `none` reading makes `unwrap()`
panic: the task halts and publishes nothing further. -/
def samplerRun : (Fin 10 → ℕ) → Fin 10 → List (Option ℕ) → List ℕ
  | _, _, [] => []
  | _, _, none :: _ => []
  | ms, pos, some v :: rest =>
    let ms' := Function.update ms pos v
    let pos' := pos + 1
    if pos' = 0 then u16sum (ringList ms') / 10 :: samplerRun ms' pos' rest
    else samplerRun ms' pos' rest

/-- Whether the sampler task panics (hits the `unwrap()` of an `Err`)
while consuming the given readings. -/
def samplerPanics : List (Option ℕ) → Bool
  | [] => false
  | none :: _ => true
  | some _ :: rest => samplerPanics rest

/-- The sampler task started as in the source: ring `[0u16; 10]`, cursor
0, all readings successful. -/
def samplerOuts (reads : List ℕ) : List ℕ :=
  samplerRun (fun _ => 0) 0 (reads.map some)

/-- The averages of the successive blocks of 10 readings: block k is the
last 10 readings at the moment of the (k+1)-st publish. -/
def chunkAverages : ℕ → List ℕ → List ℕ
  | 0, _ => []
  | n + 1, l => u16sum (l.take 10) / 10 :: chunkAverages n (l.drop 10)

/-- The sampler task of the variable-period variant (`read_adc_value` of
iot_adc_variable_period.rs, lines 55-65): each iteration reads one value
and signals it — no ring, no averaging.  The list of signalled values over
a finite prefix of readings is the list of the readings themselves. -/
def varSamplerRun : List ℕ → List ℕ
  | [] => []
  | v :: rest => v :: varSamplerRun rest

/-- One iteration of the threshold-variant consumer (iot_adc.rs, `main`,
lines 54-66): `prev` is the LED state before the iteration, v the received
value; the code sets the LED absolutely, ignoring `prev`:
`if value > 2048 { led.set_high() } else { led.set_low() }`. -/
def led_step (_prev : Bool) (v : ℕ) : Bool :=
  if 2048 < v then true else false

/-- Modelled from the spec: the missing repository code is
`embassy_sync::signal::Signal` (the static `CHANNEL` and `DURATION_SIGNAL`
of iot_adc_variable_period.rs; only its callers are under src/).  Per the
spec (section 3, Value Channel slot, and the glossary), a signal holds at
most one pending value and a write overwrites any unread prior value.
State: the pending value, if any.  This is the write (`Signal::signal`). -/
def signalWrite (_s : Option ℕ) (v : ℕ) : Option ℕ :=
  some v

/-- Modelled from the spec: the read (`Signal::wait`) of the signal —
blocks until a value is present (`none`: the caller suspends), then takes
the value, atomically clearing the pending slot (spec section 3). -/
def signalWait (s : Option ℕ) : Option (ℕ × Option ℕ) :=
  match s with
  | none => none
  | some v => some (v, none)

/-- Modelled from the spec: the missing repository code is
`embassy_sync::channel::Channel<_, u16, 64>` (the static `CHANNEL` of
iot_adc.rs; only its callers are under src/).  Per the spec (section 2:
"Also usable as a bounded multi-slot queue", and section 5: "a bounded
multi-slot queue ... (as in the non-variable-period design)"), it is a
bounded FIFO queue: send appends when the queue is not full (`none`: the
sender blocks), receive takes the oldest element. -/
def channelSend (q : List ℕ) (v : ℕ) : Option (List ℕ) :=
  if q.length < 64 then some (q ++ [v]) else none

/-- Modelled from the spec: receive on the bounded FIFO queue — blocks on
an empty queue (`none`), otherwise takes the oldest element. -/
def channelReceive (q : List ℕ) : Option (ℕ × List ℕ) :=
  match q with
  | [] => none
  | v :: rest => some (v, rest)

/-! Theorems. -/

theorem forceNat_eq {α : Sort u} (n : ℕ) (f : ℕ → α) : forceNat n f = f n := by
  cases n <;> rfl

theorem forceInt_eq {α : Sort u} (i : ℤ) (f : ℤ → α) : forceInt i f = f i := by
  cases i <;> simp [forceInt, forceNat_eq]

set_option maxRecDepth 100000 in
set_option maxHeartbeats 4000000 in
/-- The f64 pipeline of the variable-period consumer computes exactly the
integer law `period_code_law`, for every value the producer can deliver.
Proved by evaluating both sides at each of the 4096 inputs, in four blocks
to keep the reduction depth low. -/
theorem period_eq_code_law : ∀ v : ℕ, v ≤ 4095 → map_value_to_period v = period_code_law v := by
  have h0 : ∀ v < 1024, map_value_to_period v = period_code_law v := by decide
  have h1 : ∀ v < 1024, map_value_to_period (1024 + v) = period_code_law (1024 + v) := by decide
  have h2 : ∀ v < 1024, map_value_to_period (2048 + v) = period_code_law (2048 + v) := by decide
  have h3 : ∀ v < 1024, map_value_to_period (3072 + v) = period_code_law (3072 + v) := by decide
  intro v hv
  by_cases c1 : v < 1024
  · exact h0 v c1
  by_cases c2 : v < 2048
  · have h := h1 (v - 1024) (by omega)
    rwa [Nat.add_sub_cancel' (by omega : 1024 ≤ v)] at h
  by_cases c3 : v < 3072
  · have h := h2 (v - 2048) (by omega)
    rwa [Nat.add_sub_cancel' (by omega : 2048 ≤ v)] at h
  · have h := h3 (v - 3072) (by omega)
    rwa [Nat.add_sub_cancel' (by omega : 3072 ≤ v)] at h

theorem period_code_law_antitone {v1 v2 : ℕ} (h : v1 ≤ v2) :
    period_code_law v2 ≤ period_code_law v1 := by
  unfold period_code_law
  have hd : (5000 * v1 + 4094) / 4095 ≤ (5000 * v2 + 4094) / 4095 :=
    Nat.div_le_div_right (by omega)
  have hs : 5000 - (5000 * v2 + 4094) / 4095 ≤ 5000 - (5000 * v1 + 4094) / 4095 :=
    Nat.sub_le_sub_left hd 5000
  exact max_le_max (min_le_min (le_refl 5000) hs) (le_refl 100)

theorem period_code_law_bounds (v : ℕ) :
    100 ≤ period_code_law v ∧ period_code_law v ≤ 5000 := by
  unfold period_code_law
  exact ⟨le_max_right _ _, max_le (min_le_left _ _) (by norm_num)⟩

/-- C1 counterexample: at the received value 2048 the code computes a
period of 2499 ms while the reference law of the claim,
5000 - (v / 4095) * 4900 clamped (floored; any other rounding moves it by
at most 1), gives 2549 ms — the code uses slope 5000, not 4900. -/
theorem period_ne_spec_law_at_2048 :
    map_value_to_period 2048 = 2499 ∧ period_spec_law 2048 = 2549 ∧
      map_value_to_period 2048 ≠ period_spec_law 2048 := by
  refine ⟨by decide, by decide, by decide⟩

/-- C1 (amended): for every input v in [0, 4095], the period computed by
the variable-period consumer equals
MAX_PERIOD - (v / v_max) * MAX_PERIOD (slope MAX_PERIOD = 5000 rather
than MAX_PERIOD - MIN_PERIOD), the result floored — that is,
5000 - ⌈5000 * v / 4095⌉ — and then clamped to [100, 5000]. -/
theorem period_eq_amended_law (v : ℕ) (h : v ≤ 4095) :
    map_value_to_period v = period_code_law v :=
  period_eq_code_law v h

theorem period_eq_amended_law_witness :
    map_value_to_period 1000 = period_code_law 1000 :=
  period_eq_amended_law 1000 (by decide)

/-- C5: the value-to-period mapping of the variable-period consumer is
monotonic non-increasing on [0, 4095], and its output always lies in
[MIN_PERIOD, MAX_PERIOD] = [100, 5000]. -/
theorem period_antitone_and_bounded :
    (∀ v1 v2 : ℕ, v1 ≤ v2 → v2 ≤ 4095 →
        map_value_to_period v2 ≤ map_value_to_period v1) ∧
    (∀ v : ℕ, v ≤ 4095 →
        100 ≤ map_value_to_period v ∧ map_value_to_period v ≤ 5000) := by
  constructor
  · intro v1 v2 h12 h2
    rw [period_eq_code_law v1 (le_trans h12 h2), period_eq_code_law v2 h2]
    exact period_code_law_antitone h12
  · intro v hv
    rw [period_eq_code_law v hv]
    exact period_code_law_bounds v

theorem period_antitone_and_bounded_witness :
    map_value_to_period 200 ≤ map_value_to_period 100 ∧
      (100 ≤ map_value_to_period 300 ∧ map_value_to_period 300 ≤ 5000) :=
  ⟨period_antitone_and_bounded.1 100 200 (by decide) (by decide),
   period_antitone_and_bounded.2 300 (by decide)⟩

/-- C6: at the domain endpoints the variable-period consumer yields the
clamp bounds exactly: value 0 gives MAX_PERIOD = 5000 ms and value 4095
gives MIN_PERIOD = 100 ms. -/
theorem period_endpoints :
    map_value_to_period 0 = 5000 ∧ map_value_to_period 4095 = 100 := by
  refine ⟨by decide, by decide⟩

/-! Sampler lemmas. -/

theorem u16sum_aux (s : List ℕ) : ∀ a : ℕ, a + s.sum < 65536 →
    s.foldl (fun a x => (a + x) % 65536) a = a + s.sum := by
  induction s with
  | nil => intro a h; simp
  | cons x t ih =>
    intro a h
    simp only [List.foldl_cons, List.sum_cons] at *
    have hx : (a + x) % 65536 = a + x := Nat.mod_eq_of_lt (by omega)
    rw [hx, ih (a + x) (by omega)]
    omega

theorem u16sum_eq (s : List ℕ) (h : s.sum < 65536) : u16sum s = s.sum := by
  simpa [u16sum] using u16sum_aux s 0 (by omega)

theorem sum_le_of_bounded (s : List ℕ) (h10 : s.length = 10)
    (hb : ∀ x ∈ s, x ≤ 4095) : s.sum ≤ 40950 := by
  have h := List.sum_le_card_nsmul s 4095 hb
  rw [h10] at h
  simpa using h

/-- Processing 10 successful reads from cursor 0 publishes exactly the
wrapping-u16 average of those 10 values and fully overwrites the ring
with them. -/
theorem samplerRun_chunk (ms : Fin 10 → ℕ) (a0 a1 a2 a3 a4 a5 a6 a7 a8 a9 : ℕ)
    (rest : List (Option ℕ)) :
    samplerRun ms 0 (some a0 :: some a1 :: some a2 :: some a3 :: some a4 ::
        some a5 :: some a6 :: some a7 :: some a8 :: some a9 :: rest) =
      u16sum [a0, a1, a2, a3, a4, a5, a6, a7, a8, a9] / 10 ::
        samplerRun (Function.update (Function.update (Function.update
          (Function.update (Function.update (Function.update (Function.update
          (Function.update (Function.update (Function.update ms 0 a0) 1 a1)
          2 a2) 3 a3) 4 a4) 5 a5) 6 a6) 7 a7) 8 a8) 9 a9) 0 rest := by
  rfl

theorem chunkAverages_length (n : ℕ) : ∀ l, (chunkAverages n l).length = n := by
  induction n with
  | zero => intro l; rfl
  | succ n ih => intro l; simp [chunkAverages, ih]

/-- From any ring contents (the ring is fully overwritten before each
publish), processing 10 * n successful reads publishes exactly the u16
block averages. -/
theorem samplerRun_chunks :
    ∀ (n : ℕ) (reads : List ℕ) (ms : Fin 10 → ℕ), reads.length = 10 * n →
      samplerRun ms 0 (reads.map some) = chunkAverages n reads := by
  intro n
  induction n with
  | zero =>
    intro reads ms h
    have he : reads = [] := List.length_eq_zero.mp (by omega)
    subst he; rfl
  | succ n ih =>
    intro reads ms h
    rcases reads with _ | ⟨a0, reads⟩; · simp at h
    rcases reads with _ | ⟨a1, reads⟩; · simp at h; omega
    rcases reads with _ | ⟨a2, reads⟩; · simp at h; omega
    rcases reads with _ | ⟨a3, reads⟩; · simp at h; omega
    rcases reads with _ | ⟨a4, reads⟩; · simp at h; omega
    rcases reads with _ | ⟨a5, reads⟩; · simp at h; omega
    rcases reads with _ | ⟨a6, reads⟩; · simp at h; omega
    rcases reads with _ | ⟨a7, reads⟩; · simp at h; omega
    rcases reads with _ | ⟨a8, reads⟩; · simp at h; omega
    rcases reads with _ | ⟨a9, reads⟩; · simp at h; omega
    have hrest : reads.length = 10 * n := by simp at h; omega
    simp only [List.map_cons]
    rw [samplerRun_chunk, ih reads _ hrest]
    rfl

/-! Claim theorems about the sampler and the consumers. -/

/-- C2 (the code violates the claim): one failed analog read makes the
`unwrap()` of the sampler task panic, which terminates the task.  With a
fault at the second of 20 reads nothing is ever published, while the same
20 reads without the fault publish two averages. -/
theorem sampler_panics_on_fault :
    samplerPanics (some 0 :: none :: List.replicate 18 (some 0)) = true ∧
      samplerRun (fun _ => 0) 0 (some 0 :: none :: List.replicate 18 (some 0)) = [] ∧
      samplerPanics (List.replicate 20 (some 0)) = false ∧
      samplerOuts (List.replicate 20 0) = [0, 0] := by
  refine ⟨by decide, by decide, by decide, by decide⟩

/-- C3 counterexample: the sampler task of the variable-period variant
publishes after a single sample (it signals every raw reading), whereas
the claim allows a publish only once per 10 samples — after one sample
nothing may have been published. -/
theorem var_sampler_publishes_first_sample :
    varSamplerRun [7] = [7] ∧ varSamplerRun [7] ≠ [] := by
  refine ⟨rfl, by decide⟩

/-- C3 (amended): in the threshold variant the sampler publishes exactly
once per 10 samples, each published value the wrapping-u16 mean of the
block of 10 samples most recent at that publish; the variable-period
variant instead publishes every raw sample directly, unaveraged. -/
theorem publishes_once_per_chunk_amended :
    (∀ (n : ℕ) (reads : List ℕ), reads.length = 10 * n →
        samplerOuts reads = chunkAverages n reads ∧
          (samplerOuts reads).length = n) ∧
    (∀ reads : List ℕ, varSamplerRun reads = reads) := by
  constructor
  · intro n reads h
    have he : samplerOuts reads = chunkAverages n reads :=
      samplerRun_chunks n reads (fun _ => 0) h
    exact ⟨he, by rw [he, chunkAverages_length]⟩
  · intro reads
    induction reads with
    | nil => rfl
    | cons v rest ih => simp [varSamplerRun, ih]

theorem publishes_once_per_chunk_amended_witness :
    samplerOuts [1, 2, 3, 4, 5, 6, 7, 8, 9, 10, 11, 12, 13, 14, 15, 16, 17, 18, 19, 20] =
        chunkAverages 2 [1, 2, 3, 4, 5, 6, 7, 8, 9, 10, 11, 12, 13, 14, 15, 16, 17, 18, 19, 20] ∧
      (samplerOuts [1, 2, 3, 4, 5, 6, 7, 8, 9, 10, 11, 12, 13, 14, 15, 16, 17, 18, 19, 20]).length = 2 :=
  publishes_once_per_chunk_amended.1 2 _ (by decide)

/-- C4: running the threshold-variant sampler on any 10 in-range samples
publishes exactly the floor of their sum divided by 10, which lies within
[0, 4095]. -/
theorem sampler_average_floor_div (s : List ℕ) (h10 : s.length = 10)
    (hb : ∀ x ∈ s, x ≤ 4095) :
    samplerOuts s = [s.sum / 10] ∧ s.sum / 10 ≤ 4095 := by
  have hsum : s.sum ≤ 40950 := sum_le_of_bounded s h10 hb
  have h1 : samplerOuts s = chunkAverages 1 s :=
    samplerRun_chunks 1 s (fun _ => 0) (by omega)
  have htake : s.take 10 = s := by rw [← h10, List.take_length]
  have h2 : chunkAverages 1 s = [u16sum s / 10] := by
    simp [chunkAverages, htake]
  refine ⟨?_, Nat.div_le_div_right hsum⟩
  rw [h1, h2, u16sum_eq s (by omega)]

theorem sampler_average_floor_div_witness :
    samplerOuts [4095, 4095, 4095, 4095, 4095, 4095, 4095, 4095, 4095, 4095] =
        [([4095, 4095, 4095, 4095, 4095, 4095, 4095, 4095, 4095, 4095] : List ℕ).sum / 10] ∧
      ([4095, 4095, 4095, 4095, 4095, 4095, 4095, 4095, 4095, 4095] : List ℕ).sum / 10 ≤ 4095 :=
  sampler_average_floor_div _ (by decide) (by decide)

/-- C7 counterexample: the Value Channel of the threshold variant (the
static CHANNEL of iot_adc.rs, a bounded queue of capacity 64) retains both
of two consecutive writes: after the producer writes 1 and then 2 with no
read in between, the next read returns 1, not 2 — it is not
latest-value-wins. -/
theorem channel_fifo_not_latest_wins :
    channelSend [] 1 = some [1] ∧ channelSend [1] 2 = some [1, 2] ∧
      channelReceive [1, 2] = some (1, [2]) ∧ (1 : ℕ) ≠ 2 := by
  refine ⟨by decide, by decide, rfl, by decide⟩

/-- C7 (amended): the signals of the variable-period variant hold at most
one pending value with latest-value-wins semantics — after writes of v1
and then v2 with no read in between, the next read returns v2 and clears
the slot, and v1 is lost; the channel of the threshold variant instead is
a bounded FIFO queue that retains both writes and serves the older one
first. -/
theorem signal_latest_wins_amended :
    (∀ (s : Option ℕ) (v1 v2 : ℕ),
        signalWait (signalWrite (signalWrite s v1) v2) = some (v2, none)) ∧
    (∀ v1 v2 : ℕ, channelSend [] v1 = some [v1] ∧
        channelSend [v1] v2 = some [v1, v2] ∧
        channelReceive [v1, v2] = some (v1, [v2])) := by
  exact ⟨fun s v1 v2 => rfl, fun v1 v2 => ⟨rfl, rfl, rfl⟩⟩

/-- C8: the threshold consumer drives the LED to an absolute state — on
exactly when the received value exceeds 2048; 2049 gives on, 2047 gives
off, and the boundary value 2048 gives off. -/
theorem led_threshold_iff :
    (∀ (prev : Bool) (v : ℕ), led_step prev v = true ↔ 2048 < v) ∧
      led_step false 2049 = true ∧ led_step false 2047 = false ∧
      led_step false 2048 = false := by
  refine ⟨?_, rfl, rfl, rfl⟩
  intro prev v
  by_cases h : 2048 < v <;> simp [led_step, h]

/-- C10: the threshold consumer is memoryless — the LED state after
handling v does not depend on the prior LED state, handling the same value
repeatedly is idempotent, and after any history of values ending in v the
LED state is exactly the test 2048 < v. -/
theorem led_step_memoryless :
    (∀ (p q : Bool) (v : ℕ), led_step p v = led_step q v) ∧
      (∀ (p : Bool) (v : ℕ), led_step (led_step p v) v = led_step p v) ∧
      (∀ (vs : List ℕ) (p : Bool) (v : ℕ),
        List.foldl led_step p (vs ++ [v]) = decide (2048 < v)) := by
  refine ⟨fun p q v => rfl, fun p v => rfl, ?_⟩
  intro vs p v
  rw [List.foldl_append]
  by_cases h : 2048 < v <;> simp [led_step, h]

/-- C9: with every sample at most 4095 the u16 accumulation of the 10
ring slots cannot wrap (the sum is at most 40950 < 2 ^ 16), so the
published average is exactly the floor of the true sum divided by 10;
without the range precondition the sum is reduced modulo 2 ^ 16 and the
average can be wrong (ten samples of 6554 average to 0 instead of 6554). -/
theorem u16sum_no_wrap_in_range :
    (∀ s : List ℕ, s.length = 10 → (∀ x ∈ s, x ≤ 4095) →
        u16sum s = s.sum ∧ u16sum s / 10 = s.sum / 10) ∧
    (u16sum (List.replicate 10 6554) ≠ (List.replicate 10 6554).sum ∧
      u16sum (List.replicate 10 6554) / 10 ≠ (List.replicate 10 6554).sum / 10) := by
  constructor
  · intro s h10 hb
    have hs := sum_le_of_bounded s h10 hb
    have he := u16sum_eq s (by omega)
    exact ⟨he, by rw [he]⟩
  · exact ⟨by decide, by decide⟩

theorem u16sum_no_wrap_in_range_witness :
    u16sum [0, 1, 2, 3, 4, 5, 6, 7, 8, 9] = ([0, 1, 2, 3, 4, 5, 6, 7, 8, 9] : List ℕ).sum ∧
      u16sum [0, 1, 2, 3, 4, 5, 6, 7, 8, 9] / 10 =
        ([0, 1, 2, 3, 4, 5, 6, 7, 8, 9] : List ℕ).sum / 10 :=
  u16sum_no_wrap_in_range.1 _ (by decide) (by decide)

end Embassy
